import Mathlib

/-!
Verification of the kythira maintenance scripts and of the consensus /
transport system they patch.

The repository's own files are small Python scripts that rewrite the two
C++ headers `include/raft/raft.hpp` and
`include/raft/coap_transport_impl.hpp`.  The scripts' text transformations
are embedded below over `List Char` (a Python `str` is a sequence of
characters), with Python's `str.strip`, `str.replace`, substring test
`in`, `glob` matching and the one regular expression of
`fix_all_raft_methods.py` implemented faithfully.  The consensus node and
the CoAP transport layer that the scripts repair are not part of the
repository snapshot, so those components are modelled from the
specification text, as marked on each definition.
-/

set_option maxHeartbeats 1000000

/-- Characters stripped by Python's `str.strip()` (ASCII fragment):
space, tab, newline, carriage return, vertical tab, form feed. -/
def pyIsSpace (c : Char) : Bool :=
  c = ' ' || c = '\t' || c = '\n' || c = '\r' || c = '\x0b' || c = '\x0c'

/-- Python `s.strip()`: drop whitespace from both ends. -/
def pyStrip (s : List Char) : List Char :=
  ((s.dropWhile pyIsSpace).reverse.dropWhile pyIsSpace).reverse

/-- Convert a Lean string literal to the character-list representation
used throughout this development. -/
def chars (s : String) : List Char :=
  s.toList

/-- Python's substring test `sub in s`. -/
def containsL (s sub : List Char) : Bool :=
  match s with
  | [] => sub.isEmpty
  | _ :: rest => sub.isPrefixOf s || containsL rest sub

/-- Fuel-indexed core of Python's `s.replace(old, new)`: replace every
non-overlapping occurrence of `old`, scanning left to right.  Each step
consumes at least one character, so fuel `s.length` never runs out. -/
def replaceLAux : Nat → List Char → List Char → List Char → List Char
  | 0, s, _, _ => s
  | Nat.succ n, s, old, new =>
    match s with
    | [] => []
    | c :: rest =>
      if old ≠ [] ∧ old.isPrefixOf (c :: rest) then
        new ++ replaceLAux n ((c :: rest).drop old.length) old new
      else
        c :: replaceLAux n rest old new

/-- Python's `s.replace(old, new)`.  The scripts never call `replace`
with an empty pattern, and for an empty `old` this embedding leaves the
string unchanged. -/
def replaceL (s old new : List Char) : List Char :=
  replaceLAux s.length s old new

/-- Pathname glob matching as used by `glob.glob` in
`fix_completion_tests.py`: the only wildcard appearing in the scripts'
patterns is `*`, which matches any run of characters other than the path
separator. -/
def globMatchAux : Nat → List Char → List Char → Bool
  | 0, _, _ => false
  | Nat.succ n, pat, s =>
    match pat, s with
    | [], [] => true
    | [], _ :: _ => false
    | '*' :: p, t =>
      globMatchAux n p t ||
        (match t with
         | [] => false
         | c :: t' => decide (c ≠ '/') && globMatchAux n ('*' :: p) t')
    | _ :: _, [] => false
    | c :: p, d :: t => c = d && globMatchAux n p t

/-- Pathname glob matching: every recursive call of the matcher shrinks
the combined length of pattern and candidate, so this fuel suffices. -/
def globMatch (pat s : List Char) : Bool :=
  globMatchAux (pat.length + s.length + 1) pat s

/-! ## Files opened for writing by each maintenance script (claim C1) -/

/-- Path of the generic consensus-protocol header patched by most scripts. -/
def raftHeaderPath : List Char :=
  chars "include/raft/raft.hpp"

/-- Path of the network-transport implementation patched by
`remove_duplicates.py`. -/
def coapImplPath : List Char :=
  chars "include/raft/coap_transport_impl.hpp"

/-- The six glob patterns whose matches `fix_completion_tests.py` opens
for writing (source lines 10-15). -/
def completion_test_globs : List (List Char) :=
  [chars "tests/raft_*_completion_property_test.cpp",
   chars "tests/raft_*_collection_property_test.cpp",
   chars "tests/raft_*_retry_*_property_test.cpp",
   chars "tests/raft_*_linearizability_*_property_test.cpp",
   chars "tests/raft_*_read_*_property_test.cpp",
   chars "tests/raft_*_concurrent_*_property_test.cpp"]

/-- A path is a completion-test target when it matches one of the six
glob patterns of `fix_completion_tests.py`. -/
def matchesCompletionGlob (f : List Char) : Bool :=
  completion_test_globs.any (fun p => globMatch p f)

/-- Files opened for writing by `fix_all_raft_methods.py` (line 40). -/
def fix_all_raft_methods_writes : List (List Char) := [raftHeaderPath]

/-- Files opened for writing by `fix_all_templates.py` (line 53). -/
def fix_all_templates_writes : List (List Char) := [raftHeaderPath]

/-- Files opened for writing by `fix_raft_complete.py` (line 106). -/
def fix_raft_complete_writes : List (List Char) := [raftHeaderPath]

/-- Files opened for writing by `fix_raft_comprehensive.py` (line 54). -/
def fix_raft_comprehensive_writes : List (List Char) := [raftHeaderPath]

/-- Files opened for writing by `fix_raft_method_templates.py` (line 59). -/
def fix_raft_method_templates_writes : List (List Char) := [raftHeaderPath]

/-- Files opened for writing by `fix_raft_namespaces.py` (line 67). -/
def fix_raft_namespaces_writes : List (List Char) := [raftHeaderPath]

/-- Files opened for writing by `fix_raft_template_issues.py` (line 68). -/
def fix_raft_template_issues_writes : List (List Char) := [raftHeaderPath]

/-- Files opened for writing by `fix_templates.py` (line 76). -/
def fix_templates_writes : List (List Char) := [raftHeaderPath]

/-- Files opened for writing by `remove_duplicates.py` (line 49). -/
def remove_duplicates_writes : List (List Char) := [coapImplPath]

/-- Files opened for writing by `fix_completion_tests.py` (line 46): it
rewrites every file its six globs matched on disk. -/
def fix_completion_tests_writes (matched : List (List Char)) : List (List Char) :=
  matched

/-- All files opened for writing across one run of every maintenance
script, where `matched` is the set of test files the globs of
`fix_completion_tests.py` found on disk. -/
def all_script_writes (matched : List (List Char)) : List (List Char) :=
  fix_all_raft_methods_writes ++ fix_all_templates_writes ++
  fix_raft_complete_writes ++ fix_raft_comprehensive_writes ++
  fix_raft_method_templates_writes ++ fix_raft_namespaces_writes ++
  fix_raft_template_issues_writes ++ fix_templates_writes ++
  remove_duplicates_writes ++ fix_completion_tests_writes matched

/-! ## The per-match replacement of fix_all_raft_methods.py (claims C7, C8) -/

/-- The replacement callback `fix_template_and_node` of
`fix_all_raft_methods.py` (lines 15-35), applied to the three captured
groups and the full matched text.  If the (stripped) template parameter
list already mentions `FutureType` the match is returned unchanged;
otherwise `typename FutureType` is prepended to the template parameter
list and `FutureType` to the `node<...>` argument list, each via
Python `str.replace` on the stripped capture. -/
def fix_template_and_node (g1 g2 _g3 full : List Char) : List Char :=
  let template_params := pyStrip g1
  let node_params := pyStrip g2
  if containsL template_params (chars "FutureType") then full
  else
    let new_template_params :=
      chars "typename FutureType,\n    " ++ template_params
    let new_node_params := chars "FutureType, " ++ node_params
    let result :=
      replaceL full (chars "template<" ++ template_params ++ chars ">")
        (chars "template<\n    " ++ new_template_params ++ chars "\n>")
    replaceL result (chars "node<" ++ node_params ++ chars ">")
      (chars "node<" ++ new_node_params ++ chars ">")

/-- Match a literal at the head of the input, returning the remainder. -/
def stripLit (lit s : List Char) : Option (List Char) :=
  if lit.isPrefixOf s then some (s.drop lit.length) else none

/-- The character class `\s` of Python regular expressions (ASCII
fragment), as used in the pattern of `fix_all_raft_methods.py`. -/
def reIsSpace (c : Char) : Bool :=
  pyIsSpace c

/-- The tail `auto\s+node<([^>]+)>::([^(]+)\(` of the pattern of
`fix_all_raft_methods.py`, tried at one input position.  Every
quantifier in this tail is forced: each greedy character class is
followed by a character it excludes, so the maximal run is the only run
that can succeed.  Returns the two captured groups and the remainder of
the input after the match. -/
def reMatchTail (t : List Char) : Option (List Char × List Char × List Char) :=
  match stripLit (chars "auto") t with
  | none => none
  | some t1 =>
    let ws := t1.takeWhile reIsSpace
    if ws.isEmpty then none
    else
      match stripLit (chars "node<") (t1.drop ws.length) with
      | none => none
      | some t2 =>
        let g2 := t2.takeWhile (fun c => c ≠ '>')
        if g2.isEmpty then none
        else
          match stripLit (chars ">::") (t2.drop g2.length) with
          | none => none
          | some t3 =>
            let g3 := t3.takeWhile (fun c => c ≠ '(')
            if g3.isEmpty then none
            else
              match stripLit (chars "(") (t3.drop g3.length) with
              | none => none
              | some t4 => some (g2, g3, t4)

/-- The lazy quantifier `[^{]*?` of the pattern, followed by the pattern
tail: expand the class one character at a time, shortest first, trying
the tail at each position, and refuse to cross a left brace. -/
def reLazyScan (t : List Char) : Option (List Char × List Char × List Char) :=
  match reMatchTail t with
  | some r => some r
  | none =>
    match t with
    | [] => none
    | c :: t' => if c = Char.ofNat 123 then none else reLazyScan t'

/-- Attempt the full pattern
`template<([^>]+)>\s*requires[^{]*?auto\s+node<([^>]+)>::([^(]+)\(` of
`fix_all_raft_methods.py` at the head of `s` (Python backtracking
semantics; the `MULTILINE` and `DOTALL` flags do not affect this
pattern).  On success returns the three captured groups and the length
of the matched text. -/
def reMatchAt (s : List Char) : Option (List Char × List Char × List Char × Nat) :=
  match stripLit (chars "template<") s with
  | none => none
  | some s1 =>
    let g1 := s1.takeWhile (fun c => c ≠ '>')
    if g1.isEmpty then none
    else
      match stripLit (chars ">") (s1.drop g1.length) with
      | none => none
      | some s2 =>
        match stripLit (chars "requires")
            (s2.drop (s2.takeWhile reIsSpace).length) with
        | none => none
        | some s3 =>
          match reLazyScan s3 with
          | none => none
          | some (g2, g3, rest) => some (g1, g2, g3, s.length - rest.length)

/-- One fuel-indexed step of `re.sub` with the pattern of
`fix_all_raft_methods.py` and replacement `fix_template_and_node`:
scan left to right, replace each leftmost match and resume after it.
Every match consumes at least the nine characters of `template<`, so
fuel `s.length` never runs out. -/
def reSubAux : Nat → List Char → List Char
  | 0, s => s
  | Nat.succ n, s =>
    match reMatchAt s with
    | some (g1, g2, g3, k) =>
      fix_template_and_node g1 g2 g3 (s.take k) ++ reSubAux n (s.drop k)
    | none =>
      match s with
      | [] => []
      | c :: s' => c :: reSubAux n s'

/-- The whole text transformation of `fix_all_raft_methods.py` (line 38):
`re.sub(pattern, fix_template_and_node, content, flags=MULTILINE|DOTALL)`. -/
def fix_all_raft_methods_sub (s : List Char) : List Char :=
  reSubAux s.length s

/-- Decidable check that every match of the pattern anywhere in `s` has
a captured template parameter list that already mentions `FutureType`. -/
def allMatchesHaveFutureType (s : List Char) : Bool :=
  (List.range (s.length + 1)).all (fun i =>
    match reMatchAt (s.drop i) with
    | some r => containsL (pyStrip r.1) (chars "FutureType")
    | none => true)

/-! ## The bounded rewrite loop of fix_all_templates.py (claim C9) -/

/-- The pass loop of `fix_all_template_declarations` in
`fix_all_templates.py` (lines 45-50): repeatedly apply the substitution
`sub` to the content, stopping early as soon as a pass produces no
change, for at most the given number of passes.  The substitution itself
is kept as a parameter; the loop's behaviour does not depend on it. -/
def fix_all_template_declarations_loop
    (sub : List Char → List Char) : Nat → List Char → List Char
  | 0, content => content
  | Nat.succ n, content =>
    let next := sub content
    if next = content then content
    else fix_all_template_declarations_loop sub n next

/-- The content written back by `fix_all_templates.py` (lines 44-54):
the loop above run with its fixed bound of 5 passes. -/
def fix_all_template_declarations_passes
    (sub : List Char → List Char) (content : List Char) : List Char :=
  fix_all_template_declarations_loop sub 5 content

/-! ## remove_duplicates.py (claims C10 and parts of C2, C5, C6) -/

/-- The table `duplicates_to_remove` of `remove_duplicates.py`
(lines 11-25): 1-based start line and method name of each duplicate
block to delete from `coap_transport_impl.hpp`. -/
def duplicates_to_remove : List (Nat × List Char) :=
  [(1846, chars "should_use_block_transfer"),
   (1852, chars "split_payload_into_blocks"),
   (1917, chars "cleanup_expired_block_transfers"),
   (1934, chars "detect_malformed_message"),
   (2005, chars "handle_resource_exhaustion"),
   (2094, chars "get_or_create_session"),
   (2171, chars "return_session_to_pool"),
   (2202, chars "cleanup_expired_sessions"),
   (2266, chars "allocate_from_pool"),
   (2282, chars "get_cached_serialization"),
   (2310, chars "cache_serialization"),
   (2334, chars "cleanup_serialization_cache"),
   (2668, chars "setup_multicast_listener")]

/-- Stable insertion of one entry into a list kept in descending order
of start line; entries with strictly larger start stay in front. -/
def insertDescByStart (x : Nat × List Char) :
    List (Nat × List Char) → List (Nat × List Char)
  | [] => [x]
  | y :: ys =>
    if x.1 > y.1 then x :: y :: ys else y :: insertDescByStart x ys

/-- Python's `duplicates_to_remove.sort(key=lambda x: x[0], reverse=True)`
(line 28): the table in descending order of start line. -/
def duplicates_sorted : List (Nat × List Char) :=
  duplicates_to_remove.foldr insertDescByStart []

/-- A line of `coap_transport_impl.hpp` that terminates a duplicate
block: after `strip()` it starts with `template<` or with
`} // namespace` (line 39 of `remove_duplicates.py`). -/
def isBoundaryLine (l : List Char) : Bool :=
  (chars "template<").isPrefixOf (pyStrip l) ||
    (chars "\x7d // namespace").isPrefixOf (pyStrip l)

/-- Number of leading lines that are not boundary lines: the offset of
the first boundary line in the list, or its length when none occurs. -/
def findBoundaryOffset : List (List Char) → Nat
  | [] => 0
  | l :: ls => if isBoundaryLine l then 0 else findBoundaryOffset ls + 1

/-- The end-of-block search of `remove_duplicates.py` (lines 36-41):
the first index at or after position `i` whose line is a boundary line,
or the number of lines when no boundary line follows (the `min` also
covers a start position beyond the end of the file, where the scanned
range is empty). -/
def findEndIdx (lines : List (List Char)) (i : Nat) : Nat :=
  min (i + findBoundaryOffset (lines.drop i)) lines.length

/-- One deletion of `remove_duplicates.py` (lines 31-46):
`del lines[start_idx:end_idx]` with `start_idx = start_line - 1` and
`end_idx` the next boundary line after `start_idx`, or end of file. -/
def removeOneDuplicate (lines : List (List Char)) (startLine : Nat) :
    List (List Char) :=
  let startIdx := startLine - 1
  let endIdx := findEndIdx lines (startIdx + 1)
  lines.take startIdx ++ lines.drop endIdx

/-- The state of the line list after the first `k` deletions of
`remove_duplicates.py` have been performed in sorted order. -/
def remove_duplicates_after (k : Nat) (lines : List (List Char)) :
    List (List Char) :=
  (duplicates_sorted.take k).foldl (fun ls d => removeOneDuplicate ls d.1) lines

/-- The full line-deletion pipeline of `remove_duplicates.py`: all 13
deletions, performed in descending order of start line. -/
def remove_duplicates_run (lines : List (List Char)) : List (List Char) :=
  duplicates_sorted.foldl (fun ls d => removeOneDuplicate ls d.1) lines

/-! ## CoAP block-wise transfer (claim C2)

The block-transfer code lives in `include/raft/coap_transport_impl.hpp`,
which is not part of the repository snapshot (the scripts only patch
it), so this layer is modelled from the specification. -/

/-- Modelled from the spec: one block produced by
`split_payload_into_blocks` in `coap_transport_impl.hpp` (absent from
the snapshot): sequence number, more-data flag, and the carried bytes
(spec sections 4.4 and the glossary entry for block-wise transfer). -/
structure CoapBlock where
  seqNum : Nat
  more : Bool
  data : List Nat
deriving DecidableEq, Repr

/-- Modelled from the spec: fragmentation of a payload into consecutive
chunks of the negotiated block size (a block size of 0 is clamped to 1
so that fragmentation makes progress). -/
def chunkPayloadAux : Nat → Nat → List Nat → List (List Nat)
  | 0, _, _ => []
  | Nat.succ n, blockSize, p =>
    match p with
    | [] => []
    | c :: rest =>
      (c :: rest).take (max blockSize 1) ::
        chunkPayloadAux n blockSize ((c :: rest).drop (max blockSize 1))

/-- Fragmentation into consecutive chunks of the (clamped) block size;
each step consumes at least one byte, so fuel `p.length` suffices. -/
def chunkPayload (blockSize : Nat) (p : List Nat) : List (List Nat) :=
  chunkPayloadAux p.length blockSize p

/-- Number the chunks consecutively from `i`, setting the more-data flag
on every block except the one holding the final chunk of the `n` total. -/
def mkBlocks (n i : Nat) : List (List Nat) → List CoapBlock
  | [] => []
  | d :: ds => ⟨i, decide (i + 1 < n), d⟩ :: mkBlocks n (i + 1) ds

/-- Modelled from the spec: `split_payload_into_blocks` of
`coap_transport_impl.hpp` (absent from the snapshot) fragments an
outgoing payload into ordered, independently-sendable blocks carrying
sequence and more-flag metadata (spec section 4.4). -/
def split_payload_into_blocks (blockSize : Nat) (p : List Nat) :
    List CoapBlock :=
  mkBlocks (chunkPayload blockSize p).length 0 (chunkPayload blockSize p)

/-- Modelled from the spec: the receiver stores an arriving block in the
reassembly state keyed by sequence number; a duplicate of an
already-received sequence number is idempotently ignored (spec
section 4.4). -/
def receive_block (tbl : List CoapBlock) (b : CoapBlock) : List CoapBlock :=
  if tbl.any (fun x => x.seqNum = b.seqNum) then tbl else b :: tbl

/-- Modelled from the spec: reassembly of a block sequence received in
arbitrary order.  The block whose more-flag is clear names the last
sequence number; reassembly succeeds once every sequence number up to it
is present, concatenating the blocks in sequence order (spec
section 4.4). -/
def reassemble_blocks (arrivals : List CoapBlock) : Option (List Nat) :=
  let tbl := arrivals.foldl receive_block []
  match tbl.find? (fun b => !b.more) with
  | none => none
  | some last =>
    ((List.range (last.seqNum + 1)).mapM
        (fun i => (tbl.find? (fun b => b.seqNum = i)).map
          (fun b => b.data))).map List.flatten

/-! ## Consensus node state machine (claims C3, C4)

The consensus node lives in `include/raft/raft.hpp`, which is not part
of the repository snapshot, so the election and commit machinery is
modelled from the specification (sections 3, 4.1 and 8). -/

/-- Modelled from the spec: the role of a node, exactly one per node at
any time (spec section 3). -/
inductive RaftRole
  | Follower
  | Candidate
  | Leader
deriving DecidableEq, Repr

/-- Modelled from the spec: the per-node consensus state of a cluster of
`N` nodes (spec sections 3 and 4.1).  `votedFor m t` is the ballot node
`m` cast in term `t`, recorded once and never changed; `replicated m` is
the highest log index known to be replicated on `m`; `commitIndex` is
the highest index known safe to apply. -/
structure RaftCluster (N : Nat) where
  currentTerm : Fin N → Nat
  role : Fin N → RaftRole
  votedFor : Fin N → Nat → Option (Fin N)
  replicated : Fin N → Nat
  commitIndex : Fin N → Nat

/-- Modelled from the spec: a quorum is a majority of the voting cluster
members (glossary). -/
def IsMajority (N : Nat) (q : Finset (Fin N)) : Prop :=
  N < 2 * q.card

/-- The voters that cast their term-`t` ballot for candidate `c`. -/
def votersFor {N : Nat} (s : RaftCluster N) (t : Nat) (c : Fin N) :
    Finset (Fin N) :=
  Finset.univ.filter (fun m => s.votedFor m t = some c)

/-- Modelled from the spec: the operations of the consensus node state
machine (spec section 4.1).  An election timeout turns a non-leader into
a candidate that increments its term and votes for itself; a node grants
at most one vote per term; a candidate with a majority of the ballots of
its current term becomes leader; discovering a higher term reverts a
node to follower at that term; replication progress and the two commit
rules (leader majority-advance, follower min-with-leader-commit) only
ever raise indices. -/
inductive RaftStep {N : Nat} : RaftCluster N → RaftCluster N → Prop
  | startElection (s : RaftCluster N) (n : Fin N)
      (hrole : s.role n ≠ RaftRole.Leader)
      (hvote : s.votedFor n (s.currentTerm n + 1) = none) :
      RaftStep s
        { s with
          currentTerm := Function.update s.currentTerm n (s.currentTerm n + 1)
          role := Function.update s.role n RaftRole.Candidate
          votedFor := fun m t =>
            if m = n ∧ t = s.currentTerm n + 1 then some n else s.votedFor m t }
  | grantVote (s : RaftCluster N) (m c : Fin N) (t : Nat)
      (hfree : s.votedFor m t = none) :
      RaftStep s
        { s with
          votedFor := fun m' t' =>
            if m' = m ∧ t' = t then some c else s.votedFor m' t' }
  | becomeLeader (s : RaftCluster N) (n : Fin N)
      (hrole : s.role n = RaftRole.Candidate)
      (hmaj : IsMajority N (votersFor s (s.currentTerm n) n)) :
      RaftStep s { s with role := Function.update s.role n RaftRole.Leader }
  | discoverHigherTerm (s : RaftCluster N) (n : Fin N) (t : Nat)
      (hgt : s.currentTerm n < t) :
      RaftStep s
        { s with
          currentTerm := Function.update s.currentTerm n t
          role := Function.update s.role n RaftRole.Follower }
  | appendEntries (s : RaftCluster N) (n : Fin N) (i : Nat) :
      RaftStep s
        { s with
          replicated := Function.update s.replicated n
            (max (s.replicated n) i) }
  | leaderAdvanceCommit (s : RaftCluster N) (n : Fin N) (c : Nat)
      (hrole : s.role n = RaftRole.Leader)
      (hmaj : IsMajority N (Finset.univ.filter (fun m => c ≤ s.replicated m))) :
      RaftStep s
        { s with
          commitIndex := Function.update s.commitIndex n
            (max (s.commitIndex n) c) }
  | followerAdvanceCommit (s : RaftCluster N) (n : Fin N)
      (leaderCommit lastIdx : Nat) :
      RaftStep s
        { s with
          commitIndex := Function.update s.commitIndex n
            (max (s.commitIndex n) (min leaderCommit lastIdx)) }

/-- Modelled from the spec: the initial state, every node a follower at
term 0 with an empty ballot ledger and empty log (spec section 4.1). -/
def raftInit (N : Nat) : RaftCluster N :=
  { currentTerm := fun _ => 0
    role := fun _ => RaftRole.Follower
    votedFor := fun _ _ => none
    replicated := fun _ => 0
    commitIndex := fun _ => 0 }

/-- A cluster state reachable from the initial state by the node's
operations: a reachable history of the state machine. -/
def RaftReachable {N : Nat} (s : RaftCluster N) : Prop :=
  Relation.ReflTransGen RaftStep (raftInit N) s

/-! ## Session pool (claim C5)

`get_or_create_session` and the pool bookkeeping live in
`coap_transport_impl.hpp`, absent from the snapshot; modelled from the
specification (sections 4.4 and 7). -/

/-- Modelled from the spec: reply of the session pool, either a usable
session or the explicit overloaded/backpressure signal (spec
sections 4.4 and 7). -/
inductive PoolReply
  | granted
  | overloaded
deriving DecidableEq, Repr

/-- Modelled from the spec: the session pool, a set of per-peer sessions
bounded by a configured maximum pool size (spec section 4.4). -/
structure SessionPool where
  maxSessions : Nat
  sessions : List Nat
deriving DecidableEq, Repr

/-- Modelled from the spec: `get_or_create_session(peer)` of
`coap_transport_impl.hpp` (absent from the snapshot) returns an existing
session for the peer, creates one when the pool is below its bound, and
otherwise rejects the request with the explicit overloaded signal
instead of growing the pool (spec sections 4.4 and 7). -/
def get_or_create_session (pool : SessionPool) (peer : Nat) :
    PoolReply × SessionPool :=
  if pool.sessions.contains peer then (PoolReply.granted, pool)
  else if pool.sessions.length < pool.maxSessions then
    (PoolReply.granted, { pool with sessions := peer :: pool.sessions })
  else (PoolReply.overloaded, pool)

/-- Modelled from the spec: `cleanup_expired_sessions` evicts the
sessions idle past the configured threshold, here given as the list of
expired peers (spec section 4.4). -/
def cleanup_expired_sessions (expired : List Nat) (pool : SessionPool) :
    SessionPool :=
  { pool with sessions := pool.sessions.filter (fun p => !expired.contains p) }

/-- Modelled from the spec: the operations that change the session
pool's contents. -/
inductive PoolStep : SessionPool → SessionPool → Prop
  | getOrCreate (pool : SessionPool) (peer : Nat) :
      PoolStep pool (get_or_create_session pool peer).2
  | cleanup (pool : SessionPool) (expired : List Nat) :
      PoolStep pool (cleanup_expired_sessions expired pool)

/-- A pool state reachable from the empty pool of a given capacity. -/
def PoolReachable (maxSessions : Nat) (pool : SessionPool) : Prop :=
  Relation.ReflTransGen PoolStep ⟨maxSessions, []⟩ pool

/-! ## Serialization cache (claim C6)

`get_cached_serialization` / `cache_serialization` /
`cleanup_serialization_cache` live in `coap_transport_impl.hpp`, absent
from the snapshot; modelled from the specification (section 4.4). -/

/-- Modelled from the spec: the serialization cache, a table of entries
keyed by the content key of a command.  The spec keys entries by a hash
of the command content; the model uses the command itself as the
content key, an injective content function (spec sections 3 and 4.4). -/
structure SerializationCache where
  entries : List (Nat × List Nat)
deriving DecidableEq, Repr

/-- Modelled from the spec: `get_cached_serialization` looks the command
up by its content key (spec section 4.4). -/
def get_cached_serialization (cache : SerializationCache) (cmd : Nat) :
    Option (List Nat) :=
  (cache.entries.find? (fun e => e.1 = cmd)).map (fun e => e.2)

/-- Modelled from the spec: `cache_serialization` memoizes the wire
encoding of a command under its content key (spec section 4.4). -/
def cache_serialization (serialize : Nat → List Nat)
    (cache : SerializationCache) (cmd : Nat) : SerializationCache :=
  if (cache.entries.find? (fun e => e.1 = cmd)).isSome then cache
  else ⟨(cmd, serialize cmd) :: cache.entries⟩

/-- Modelled from the spec: `cleanup_serialization_cache` evicts entries
by TTL or capacity pressure; which entries go is up to the eviction
policy, abstracted as a predicate on content keys (spec section 4.4). -/
def cleanup_serialization_cache (evict : Nat → Bool)
    (cache : SerializationCache) : SerializationCache :=
  ⟨cache.entries.filter (fun e => !evict e.1)⟩

/-- Modelled from the spec: the operations that change the cache. -/
inductive CacheStep (serialize : Nat → List Nat) :
    SerializationCache → SerializationCache → Prop
  | store (cache : SerializationCache) (cmd : Nat) :
      CacheStep serialize cache (cache_serialization serialize cache cmd)
  | cleanup (cache : SerializationCache) (evict : Nat → Bool) :
      CacheStep serialize cache (cleanup_serialization_cache evict cache)

/-- A cache state reachable from the empty cache under a fixed wire
encoding. -/
def CacheReachable (serialize : Nat → List Nat)
    (cache : SerializationCache) : Prop :=
  Relation.ReflTransGen (CacheStep serialize) ⟨[]⟩ cache

/-! ## Concrete scenario states used by the witnesses -/

/-- A single-node cluster after node 0 starts an election: the target
state of `RaftStep.startElection` from the initial state. -/
def raftDemoCandidate : RaftCluster 1 :=
  { raftInit 1 with
    currentTerm :=
      Function.update (raftInit 1).currentTerm 0 ((raftInit 1).currentTerm 0 + 1)
    role := Function.update (raftInit 1).role 0 RaftRole.Candidate
    votedFor := fun m t =>
      if m = 0 ∧ t = (raftInit 1).currentTerm 0 + 1 then some 0
      else (raftInit 1).votedFor m t }

/-- The single-node cluster after that candidate wins its election. -/
def raftDemoLeader : RaftCluster 1 :=
  { raftDemoCandidate with
    role := Function.update raftDemoCandidate.role 0 RaftRole.Leader }

/-- A single-node cluster after one follower commit advance. -/
def raftDemoCommit : RaftCluster 1 :=
  { raftInit 1 with
    commitIndex :=
      Function.update (raftInit 1).commitIndex 0
        (max ((raftInit 1).commitIndex 0) (min 5 3)) }

/-- A session pool of capacity 1 holding one session, for peer 5. -/
def poolDemo1 : SessionPool := ⟨1, [5]⟩

/-- A doubling wire encoding used by the cache witness. -/
def demoSerialize (cmd : Nat) : List Nat := [cmd, cmd + cmd]

/-- The cache after storing the encoding of command 4. -/
def cacheDemo1 : SerializationCache := ⟨[(4, demoSerialize 4)]⟩

/-- A three-line header used by the deletion witness. -/
def demoLines : List (List Char) :=
  [chars "int a;", chars "template<typename T>", chars "int b;"]

/-- The text `fix_template_and_node` searches for when rewriting the
template parameter list of a match with stripped first capture `g1`. -/
def templatePattern (g1 : List Char) : List Char :=
  chars "template<" ++ g1 ++ chars ">"

/-- The replacement text `fix_template_and_node` substitutes for
`templatePattern g1`: the original parameters with `typename FutureType`
prepended. -/
def templateInsertion (g1 : List Char) : List Char :=
  chars "template<\n    " ++ (chars "typename FutureType,\n    " ++ g1) ++
    chars "\n>"

/-- The text `fix_template_and_node` searches for when rewriting the
`node<...>` specialization of a match with stripped second capture `g2`. -/
def nodePattern (g2 : List Char) : List Char :=
  chars "node<" ++ g2 ++ chars ">"

/-- The replacement text `fix_template_and_node` substitutes for
`nodePattern g2`: the original arguments with `FutureType` prepended. -/
def nodeInsertion (g2 : List Char) : List Char :=
  chars "node<" ++ (chars "FutureType, " ++ g2) ++ chars ">"

/-! ## Theorems -/

theorem loop_fixpoint_or_iterate (sub : List Char → List Char) :
    ∀ (n : Nat) (content : List Char),
      sub (fix_all_template_declarations_loop sub n content) =
          fix_all_template_declarations_loop sub n content ∨
        fix_all_template_declarations_loop sub n content = sub^[n] content := by
  intro n
  induction n with
  | zero => intro content; exact Or.inr rfl
  | succ n ih =>
    intro content
    by_cases h : sub content = content
    · left
      have hfix :
          fix_all_template_declarations_loop sub (n + 1) content = content := by
        simp [fix_all_template_declarations_loop, h]
      rw [hfix]
      exact h
    · have hstep :
          fix_all_template_declarations_loop sub (n + 1) content =
            fix_all_template_declarations_loop sub n (sub content) := by
        simp [fix_all_template_declarations_loop, h]
      rw [hstep]
      rcases ih (sub content) with h' | h'
      · exact Or.inl h'
      · right
        rw [h', Function.iterate_succ_apply]

/-- C9: the rewrite loop of `fix_all_templates.py` always terminates
after at most 5 passes, stopping early once a pass produces no change,
so the written output is either a fixpoint of the substitution or the
result of exactly 5 passes. -/
theorem fix_all_templates_loop_fixpoint_or_five_passes :
    ∀ (sub : List Char → List Char) (content : List Char),
      sub (fix_all_template_declarations_passes sub content) =
          fix_all_template_declarations_passes sub content ∨
        fix_all_template_declarations_passes sub content = sub^[5] content := by
  intro sub content
  exact loop_fixpoint_or_iterate sub 5 content

/-- C1 counterexample: `fix_completion_tests.py` opens a matched test
file under `tests/` for writing, so a run of the maintenance scripts
writes to a file that is neither `include/raft/raft.hpp` nor
`include/raft/coap_transport_impl.hpp`. -/
theorem completion_tests_write_outside_headers :
    matchesCompletionGlob
        (chars "tests/raft_election_completion_property_test.cpp") = true ∧
      chars "tests/raft_election_completion_property_test.cpp" ∈
        all_script_writes
          [chars "tests/raft_election_completion_property_test.cpp"] ∧
      chars "tests/raft_election_completion_property_test.cpp" ≠
        raftHeaderPath ∧
      chars "tests/raft_election_completion_property_test.cpp" ≠
        coapImplPath := by
  refine ⟨by decide, by decide, by decide, by decide⟩

/-- C1 amended: across one run of every maintenance script, the files
opened for writing are `include/raft/raft.hpp`,
`include/raft/coap_transport_impl.hpp`, and the test files under
`tests/` matched by the six glob patterns of
`fix_completion_tests.py`; no other file is written. -/
theorem scripts_write_only_headers_or_completion_tests :
    ∀ (matched : List (List Char)),
      (∀ f ∈ matched, matchesCompletionGlob f = true) →
      ∀ w ∈ all_script_writes matched,
        w = raftHeaderPath ∨ w = coapImplPath ∨
          matchesCompletionGlob w = true := by
  intro matched hmatched w hw
  simp only [all_script_writes, fix_all_raft_methods_writes,
    fix_all_templates_writes, fix_raft_complete_writes,
    fix_raft_comprehensive_writes, fix_raft_method_templates_writes,
    fix_raft_namespaces_writes, fix_raft_template_issues_writes,
    fix_templates_writes, remove_duplicates_writes,
    fix_completion_tests_writes, List.mem_append, List.mem_singleton] at hw
  rcases hw with ((((((((h | h) | h) | h) | h) | h) | h) | h) | h) | h
  all_goals first
  | exact Or.inl h
  | exact Or.inr (Or.inl h)
  | exact Or.inr (Or.inr (hmatched w h))

theorem scripts_write_only_headers_or_completion_tests_witness :
    (∀ f ∈ ([chars "tests/raft_x_completion_property_test.cpp"] :
        List (List Char)), matchesCompletionGlob f = true) ∧
      ∀ w ∈ all_script_writes
          [chars "tests/raft_x_completion_property_test.cpp"],
        w = raftHeaderPath ∨ w = coapImplPath ∨
          matchesCompletionGlob w = true :=
  ⟨by decide,
   scripts_write_only_headers_or_completion_tests
     [chars "tests/raft_x_completion_property_test.cpp"] (by decide)⟩

theorem raftStep_commit_mono {N : Nat} {s s' : RaftCluster N}
    (h : RaftStep s s') (n : Fin N) :
    s.commitIndex n ≤ s'.commitIndex n := by
  cases h with
  | startElection m hrole hvote => exact le_rfl
  | grantVote m c t hfree => exact le_rfl
  | becomeLeader m hrole hmaj => exact le_rfl
  | discoverHigherTerm m t hgt => exact le_rfl
  | appendEntries m i => exact le_rfl
  | leaderAdvanceCommit m c hrole hmaj =>
    rcases eq_or_ne n m with rfl | hne
    · simp only [Function.update_same]
      exact le_max_left _ _
    · simp only [Function.update_noteq hne]
      exact le_rfl
  | followerAdvanceCommit m leaderCommit lastIdx =>
    rcases eq_or_ne n m with rfl | hne
    · simp only [Function.update_same]
      exact le_max_left _ _
    · simp only [Function.update_noteq hne]
      exact le_rfl

/-- C4: no operation of the consensus node ever decreases the commit
index: every step from a reachable state leaves each node's commit
index no smaller, and hence the commit index is monotonically
non-decreasing along every execution. -/
theorem raft_commit_index_monotone :
    (∀ (N : Nat) (s s' : RaftCluster N),
        RaftReachable s → RaftStep s s' →
        ∀ n : Fin N, s.commitIndex n ≤ s'.commitIndex n) ∧
      ∀ (N : Nat) (s s' : RaftCluster N),
        Relation.ReflTransGen RaftStep s s' →
        ∀ n : Fin N, s.commitIndex n ≤ s'.commitIndex n := by
  constructor
  · intro N s s' _ hstep n
    exact raftStep_commit_mono hstep n
  · intro N s s' hchain n
    induction hchain with
    | refl => exact le_rfl
    | tail _ hstep ih => exact le_trans ih (raftStep_commit_mono hstep n)

theorem raft_commit_index_monotone_witness :
    RaftReachable (raftInit 1) ∧
      RaftStep (raftInit 1) raftDemoCommit ∧
      (raftInit 1).commitIndex 0 ≤ raftDemoCommit.commitIndex 0 := by
  have hstep : RaftStep (raftInit 1) raftDemoCommit :=
    RaftStep.followerAdvanceCommit (raftInit 1) 0 5 3
  exact ⟨Relation.ReflTransGen.refl, hstep,
    raft_commit_index_monotone.1 1 (raftInit 1) raftDemoCommit
      Relation.ReflTransGen.refl hstep 0⟩

theorem poolStep_bound {p p' : SessionPool} (h : PoolStep p p')
    (hb : p.sessions.length ≤ p.maxSessions) :
    p'.sessions.length ≤ p'.maxSessions := by
  cases h with
  | getOrCreate peer =>
    unfold get_or_create_session
    split_ifs with h1 h2
    · exact hb
    · simp only [List.length_cons]
      omega
    · exact hb
  | cleanup expired =>
    exact le_trans (List.length_filter_le _ _) hb

/-- C5: the session pool never holds more than its configured maximum
number of concurrent sessions, and a `get_or_create_session` request
arriving when the pool is full and holds no session for the peer
receives the explicit overloaded backpressure signal, leaving the pool
unchanged rather than growing it beyond its bound. -/
theorem session_pool_bounded_with_backpressure :
    (∀ (maxSessions : Nat) (pool : SessionPool),
        PoolReachable maxSessions pool →
        pool.sessions.length ≤ pool.maxSessions) ∧
      ∀ (pool : SessionPool) (peer : Nat),
        ((get_or_create_session pool peer).1 = PoolReply.overloaded ↔
            peer ∉ pool.sessions ∧
              pool.maxSessions ≤ pool.sessions.length) ∧
          ((get_or_create_session pool peer).1 = PoolReply.overloaded →
            (get_or_create_session pool peer).2 = pool) ∧
          (pool.sessions.length ≤ pool.maxSessions →
            (get_or_create_session pool peer).2.sessions.length ≤
              (get_or_create_session pool peer).2.maxSessions) := by
  constructor
  · intro maxSessions pool hreach
    induction hreach with
    | refl => exact Nat.zero_le _
    | tail _ hstep ih => exact poolStep_bound hstep ih
  · intro pool peer
    refine ⟨?_, ?_, ?_⟩
    · unfold get_or_create_session
      split_ifs with h1 h2
      · have hmem : peer ∈ pool.sessions := by simpa using h1
        constructor
        · intro h
          simp at h
        · intro hcon
          exact absurd hmem hcon.1
      · constructor
        · intro h
          simp at h
        · intro hcon
          exact absurd hcon.2 (by omega)
      · have hnm : peer ∉ pool.sessions := by simpa using h1
        constructor
        · intro _
          exact ⟨hnm, by omega⟩
        · intro _
          rfl
    · unfold get_or_create_session
      split_ifs with h1 h2
      · simp
      · simp
      · intro _
        rfl
    · intro hb
      exact poolStep_bound (PoolStep.getOrCreate pool peer) hb

theorem session_pool_bounded_with_backpressure_witness :
    PoolReachable 1 poolDemo1 ∧
      poolDemo1.sessions.length ≤ poolDemo1.maxSessions ∧
      (get_or_create_session poolDemo1 7).1 = PoolReply.overloaded ∧
      (get_or_create_session poolDemo1 7).2 = poolDemo1 := by
  have hstep : PoolStep ⟨1, []⟩ poolDemo1 := by
    have h := PoolStep.getOrCreate ⟨1, []⟩ 5
    have he : (get_or_create_session ⟨1, []⟩ 5).2 = poolDemo1 := by decide
    rw [he] at h
    exact h
  have hreach : PoolReachable 1 poolDemo1 :=
    Relation.ReflTransGen.tail Relation.ReflTransGen.refl hstep
  refine ⟨hreach,
    session_pool_bounded_with_backpressure.1 1 poolDemo1 hreach,
    (session_pool_bounded_with_backpressure.2 poolDemo1 7).1.mpr
      (by decide),
    (session_pool_bounded_with_backpressure.2 poolDemo1 7).2.1
      ((session_pool_bounded_with_backpressure.2 poolDemo1 7).1.mpr
        (by decide))⟩

/-- Every entry of the cache stores exactly the wire encoding of its
content key. -/
def CacheEntriesCorrect (serialize : Nat → List Nat)
    (c : SerializationCache) : Prop :=
  ∀ e ∈ c.entries, e.2 = serialize e.1

theorem cacheStep_correct {serialize : Nat → List Nat}
    {c c' : SerializationCache} (h : CacheStep serialize c c')
    (hc : CacheEntriesCorrect serialize c) :
    CacheEntriesCorrect serialize c' := by
  cases h with
  | store cmd =>
    unfold cache_serialization
    split_ifs with h1
    · exact hc
    · intro e he
      rcases List.mem_cons.mp he with rfl | he'
      · rfl
      · exact hc e he'
  | cleanup evict =>
    intro e he
    exact hc e (List.mem_of_mem_filter he)

theorem cacheReachable_correct {serialize : Nat → List Nat}
    {c : SerializationCache} (h : CacheReachable serialize c) :
    CacheEntriesCorrect serialize c := by
  induction h with
  | refl =>
    intro e he
    simp at he
  | tail _ hstep ih => exact cacheStep_correct hstep ih

/-- C6: the serialization cache is content-addressed: in every
reachable cache state a lookup for a command either misses or returns
exactly that command's wire encoding, so an identical logical command
always yields identical cached bytes and eviction can only make an
entry absent, never cause a lookup to return different bytes. -/
theorem serialization_cache_content_addressed :
    (∀ (serialize : Nat → List Nat) (c : SerializationCache),
        CacheReachable serialize c →
        ∀ cmd : Nat,
          get_cached_serialization c cmd = none ∨
            get_cached_serialization c cmd = some (serialize cmd)) ∧
      ∀ (serialize : Nat → List Nat) (c c' : SerializationCache),
        CacheReachable serialize c → CacheReachable serialize c' →
        ∀ (cmd : Nat) (b b' : List Nat),
          get_cached_serialization c cmd = some b →
          get_cached_serialization c' cmd = some b' → b = b' := by
  have key : ∀ (serialize : Nat → List Nat) (c : SerializationCache),
      CacheReachable serialize c →
      ∀ (cmd : Nat) (b : List Nat),
        get_cached_serialization c cmd = some b → b = serialize cmd := by
    intro serialize c hreach cmd b hget
    have hinv := cacheReachable_correct hreach
    unfold get_cached_serialization at hget
    rcases Option.map_eq_some'.mp hget with ⟨e, hfind, hb⟩
    have hmem := List.mem_of_find?_eq_some hfind
    have hpred := List.find?_some hfind
    have hkey : e.1 = cmd := by simpa using hpred
    rw [← hb, hinv e hmem, hkey]
  constructor
  · intro serialize c hreach cmd
    cases hget : get_cached_serialization c cmd with
    | none => exact Or.inl rfl
    | some b =>
      exact Or.inr (by rw [key serialize c hreach cmd b hget])
  · intro serialize c c' hr hr' cmd b b' hb hb'
    rw [key serialize c hr cmd b hb, key serialize c' hr' cmd b' hb']

theorem serialization_cache_content_addressed_witness :
    CacheReachable demoSerialize cacheDemo1 ∧
      get_cached_serialization cacheDemo1 4 = some (demoSerialize 4) ∧
      (get_cached_serialization cacheDemo1 4 = none ∨
        get_cached_serialization cacheDemo1 4 = some (demoSerialize 4)) := by
  have hstep : CacheStep demoSerialize ⟨[]⟩ cacheDemo1 := by
    have h := @CacheStep.store demoSerialize ⟨[]⟩ 4
    have he : cache_serialization demoSerialize ⟨[]⟩ 4 = cacheDemo1 := by
      decide
    rw [he] at h
    exact h
  have hreach : CacheReachable demoSerialize cacheDemo1 :=
    Relation.ReflTransGen.tail Relation.ReflTransGen.refl hstep
  exact ⟨hreach, by decide,
    serialization_cache_content_addressed.1 demoSerialize cacheDemo1 hreach 4⟩

instance (N : Nat) (q : Finset (Fin N)) : Decidable (IsMajority N q) :=
  inferInstanceAs (Decidable (N < 2 * q.card))

theorem raftStep_vote_persists {N : Nat} {s s' : RaftCluster N}
    (h : RaftStep s s') {m c : Fin N} {t : Nat}
    (hv : s.votedFor m t = some c) : s'.votedFor m t = some c := by
  cases h with
  | startElection n hrole hvote =>
    show (if m = n ∧ t = s.currentTerm n + 1 then some n
      else s.votedFor m t) = some c
    by_cases hcond : m = n ∧ t = s.currentTerm n + 1
    · exfalso
      rcases hcond with ⟨rfl, rfl⟩
      rw [hvote] at hv
      cases hv
    · rw [if_neg hcond]
      exact hv
  | grantVote n c' t' hfree =>
    show (if m = n ∧ t = t' then some c' else s.votedFor m t) = some c
    by_cases hcond : m = n ∧ t = t'
    · exfalso
      rcases hcond with ⟨rfl, rfl⟩
      rw [hfree] at hv
      cases hv
    · rw [if_neg hcond]
      exact hv
  | becomeLeader n hrole hmaj => exact hv
  | discoverHigherTerm n t' hgt => exact hv
  | appendEntries n i => exact hv
  | leaderAdvanceCommit n c' hrole hmaj => exact hv
  | followerAdvanceCommit n lc li => exact hv

theorem raftStep_voters_mono {N : Nat} {s s' : RaftCluster N}
    (h : RaftStep s s') (t : Nat) (c : Fin N) :
    votersFor s t c ⊆ votersFor s' t c := by
  intro x hx
  simp only [votersFor, Finset.mem_filter] at hx ⊢
  exact ⟨Finset.mem_univ x, raftStep_vote_persists h hx.2⟩

theorem isMajority_mono {N : Nat} {q q' : Finset (Fin N)}
    (h : IsMajority N q) (hsub : q ⊆ q') : IsMajority N q' :=
  lt_of_lt_of_le h (Nat.mul_le_mul_left 2 (Finset.card_le_card hsub))

/-- Every current leader was elected by a majority of the ballots of
its current term. -/
def LeadersHaveQuorum {N : Nat} (s : RaftCluster N) : Prop :=
  ∀ n : Fin N, s.role n = RaftRole.Leader →
    IsMajority N (votersFor s (s.currentTerm n) n)

theorem raftStep_leaders_quorum {N : Nat} {s s' : RaftCluster N}
    (h : RaftStep s s') (hinv : LeadersHaveQuorum s) :
    LeadersHaveQuorum s' := by
  have hmono := raftStep_voters_mono h
  cases h with
  | startElection n hrole hvote =>
    intro m hm
    by_cases hmn : m = n
    · subst hmn
      rw [show ({ s with
            currentTerm :=
              Function.update s.currentTerm m (s.currentTerm m + 1)
            role := Function.update s.role m RaftRole.Candidate
            votedFor := fun m' t =>
              if m' = m ∧ t = s.currentTerm m + 1 then some m
              else s.votedFor m' t } : RaftCluster N).role m =
          Function.update s.role m RaftRole.Candidate m from rfl,
        Function.update_same] at hm
      cases hm
    · have hrm : s.role m = RaftRole.Leader := by
        rw [show ({ s with
              currentTerm :=
                Function.update s.currentTerm n (s.currentTerm n + 1)
              role := Function.update s.role n RaftRole.Candidate
              votedFor := fun m' t =>
                if m' = n ∧ t = s.currentTerm n + 1 then some n
                else s.votedFor m' t } : RaftCluster N).role m =
            Function.update s.role n RaftRole.Candidate m from rfl,
          Function.update_noteq hmn] at hm
        exact hm
      have hterm : Function.update s.currentTerm n (s.currentTerm n + 1) m =
          s.currentTerm m := Function.update_noteq hmn _ _
      have := isMajority_mono (hinv m hrm) (hmono (s.currentTerm m) m)
      simpa [hterm] using this
  | grantVote n c' t' hfree =>
    intro m hm
    exact isMajority_mono (hinv m hm) (hmono (s.currentTerm m) m)
  | becomeLeader n hrole hmaj =>
    intro m hm
    by_cases hmn : m = n
    · subst hmn
      exact hmaj
    · have hrm : s.role m = RaftRole.Leader := by
        rw [show ({ s with
              role := Function.update s.role n RaftRole.Leader } :
              RaftCluster N).role m =
            Function.update s.role n RaftRole.Leader m from rfl,
          Function.update_noteq hmn] at hm
        exact hm
      exact hinv m hrm
  | discoverHigherTerm n t' hgt =>
    intro m hm
    by_cases hmn : m = n
    · subst hmn
      rw [show ({ s with
            currentTerm := Function.update s.currentTerm m t'
            role := Function.update s.role m RaftRole.Follower } :
            RaftCluster N).role m =
          Function.update s.role m RaftRole.Follower m from rfl,
        Function.update_same] at hm
      cases hm
    · have hrm : s.role m = RaftRole.Leader := by
        rw [show ({ s with
              currentTerm := Function.update s.currentTerm n t'
              role := Function.update s.role n RaftRole.Follower } :
              RaftCluster N).role m =
            Function.update s.role n RaftRole.Follower m from rfl,
          Function.update_noteq hmn] at hm
        exact hm
      have hterm : Function.update s.currentTerm n t' m = s.currentTerm m :=
        Function.update_noteq hmn _ _
      have := hinv m hrm
      simpa [hterm] using this
  | appendEntries n i =>
    intro m hm
    exact hinv m hm
  | leaderAdvanceCommit n c' hrole hmaj =>
    intro m hm
    exact hinv m hm
  | followerAdvanceCommit n lc li =>
    intro m hm
    exact hinv m hm

theorem isMajority_inter {N : Nat} {q q' : Finset (Fin N)}
    (h : IsMajority N q) (h' : IsMajority N q') :
    ∃ m, m ∈ q ∧ m ∈ q' := by
  have hcard := Finset.card_union_add_card_inter q q'
  have hle : (q ∪ q').card ≤ N := by
    have := Finset.card_le_univ (q ∪ q')
    simpa using this
  have hpos : 0 < (q ∩ q').card := by
    unfold IsMajority at h h'
    omega
  obtain ⟨m, hm⟩ := Finset.card_pos.mp hpos
  exact ⟨m, Finset.mem_inter.mp hm⟩

/-- C3: election safety of the consensus node state machine: in every
reachable history, at most one node holds the Leader role in any given
term. -/
theorem raft_election_safety :
    ∀ (N : Nat) (s : RaftCluster N), RaftReachable s →
      ∀ n n' : Fin N, s.role n = RaftRole.Leader →
        s.role n' = RaftRole.Leader →
        s.currentTerm n = s.currentTerm n' → n = n' := by
  intro N s hreach
  have hinv : LeadersHaveQuorum s := by
    induction hreach with
    | refl =>
      intro m hm
      cases hm
    | tail _ hstep ih => exact raftStep_leaders_quorum hstep ih
  intro n n' hn hn' ht
  have q1 := hinv n hn
  have q2 := hinv n' hn'
  rw [ht] at q1
  obtain ⟨m, hm1, hm2⟩ := isMajority_inter q1 q2
  simp only [votersFor, Finset.mem_filter] at hm1 hm2
  have hsome : some n = some n' := hm1.2.symm.trans hm2.2
  exact Option.some.inj hsome

theorem raft_election_safety_witness :
    RaftReachable raftDemoLeader ∧
      raftDemoLeader.role 0 = RaftRole.Leader ∧
      (0 : Fin 1) = 0 := by
  have h1 : RaftStep (raftInit 1) raftDemoCandidate :=
    RaftStep.startElection (raftInit 1) 0 (by decide) (by decide)
  have h2 : RaftStep raftDemoCandidate raftDemoLeader :=
    RaftStep.becomeLeader raftDemoCandidate 0 (by decide) (by decide)
  have hreach : RaftReachable raftDemoLeader :=
    Relation.ReflTransGen.tail
      (Relation.ReflTransGen.tail Relation.ReflTransGen.refl h1) h2
  exact ⟨hreach, by decide,
    raft_election_safety 1 raftDemoLeader hreach 0 0 (by decide) (by decide)
      rfl⟩

theorem getD_drop_add (l : List (List Char)) (i j : Nat) :
    (l.drop i).getD j [] = l.getD (i + j) [] := by
  simp [List.getD_eq_getElem?_getD, List.getElem?_drop]

theorem findBoundaryOffset_spec (ls : List (List Char)) :
    findBoundaryOffset ls ≤ ls.length ∧
      (∀ j, j < findBoundaryOffset ls →
        isBoundaryLine (ls.getD j []) = false) ∧
      (findBoundaryOffset ls = ls.length ∨
        isBoundaryLine (ls.getD (findBoundaryOffset ls) []) = true) := by
  induction ls with
  | nil =>
    refine ⟨le_rfl, ?_, Or.inl rfl⟩
    intro j hj
    exact absurd hj (Nat.not_lt_zero j)
  | cons l ls ih =>
    by_cases hb : isBoundaryLine l = true
    · refine ⟨?_, ?_, Or.inr ?_⟩
      · simp [findBoundaryOffset, hb]
      · intro j hj
        simp [findBoundaryOffset, hb] at hj
      · simp [findBoundaryOffset, hb]
    · have hb' : isBoundaryLine l = false := by simpa using hb
      have hoff : findBoundaryOffset (l :: ls) = findBoundaryOffset ls + 1 := by
        simp [findBoundaryOffset, hb']
      refine ⟨?_, ?_, ?_⟩
      · rw [hoff]
        simp only [List.length_cons]
        omega
      · intro j hj
        rw [hoff] at hj
        cases j with
        | zero => simpa using hb'
        | succ j' =>
          have hj' : j' < findBoundaryOffset ls := by omega
          simpa using ih.2.1 j' hj'
      · rcases ih.2.2 with h | h
        · left
          rw [hoff, h]
          simp
        · right
          rw [hoff]
          simpa using h

theorem findEndIdx_spec (lines : List (List Char)) (i : Nat) :
    findEndIdx lines i ≤ lines.length ∧
      (∀ j, i ≤ j → j < findEndIdx lines i →
        isBoundaryLine (lines.getD j []) = false) ∧
      (findEndIdx lines i = lines.length ∨
        (i ≤ findEndIdx lines i ∧
          isBoundaryLine (lines.getD (findEndIdx lines i) []) = true)) := by
  obtain ⟨h1, h2, h3⟩ := findBoundaryOffset_spec (lines.drop i)
  rw [List.length_drop] at h1
  unfold findEndIdx
  refine ⟨min_le_right _ _, ?_, ?_⟩
  · intro j hij hje
    have hfb : j - i < findBoundaryOffset (lines.drop i) := by omega
    have hres := h2 (j - i) hfb
    rw [getD_drop_add] at hres
    have hj : i + (j - i) = j := by omega
    rw [hj] at hres
    exact hres
  · rcases h3 with h | h
    · left
      rw [List.length_drop] at h
      omega
    · have hlt : findBoundaryOffset (lines.drop i) < (lines.drop i).length := by
        by_contra hge
        rw [List.getD_eq_default _ _ (le_of_not_lt hge)] at h
        have : isBoundaryLine ([] : List Char) = false := by decide
        rw [this] at h
        cases h
      rw [List.length_drop] at hlt
      right
      constructor
      · omega
      · have hmin : min (i + findBoundaryOffset (lines.drop i)) lines.length =
            i + findBoundaryOffset (lines.drop i) := by omega
        rw [hmin, ← getD_drop_add]
        exact h

theorem findEndIdx_lower (lines : List (List Char)) (i : Nat) :
    i ≤ findEndIdx lines i ∨ findEndIdx lines i = lines.length := by
  unfold findEndIdx
  omega

theorem removeOneDuplicate_getElem?_of_lt (lines : List (List Char))
    (startLine j : Nat) (h : j + 1 < startLine) :
    (removeOneDuplicate lines startLine)[j]? = lines[j]? := by
  show (lines.take (startLine - 1) ++
      lines.drop (findEndIdx lines (startLine - 1 + 1)))[j]? = lines[j]?
  by_cases hj : j < lines.length
  · have hjt : j < (lines.take (startLine - 1)).length := by
      simp only [List.length_take]
      omega
    rw [List.getElem?_append, if_pos hjt, List.getElem?_take,
      if_pos (show j < startLine - 1 by omega)]
  · have hle : lines.length ≤ j := le_of_not_lt hj
    have hend := findEndIdx_lower lines (startLine - 1 + 1)
    have hetop := (findEndIdx_spec lines (startLine - 1 + 1)).1
    have hlen :
        (lines.take (startLine - 1) ++
          lines.drop (findEndIdx lines (startLine - 1 + 1))).length ≤
          lines.length := by
      simp only [List.length_append, List.length_take, List.length_drop]
      omega
    rw [List.getElem?_eq_none (by omega), List.getElem?_eq_none (by omega)]

theorem foldl_removeOne_getElem? :
    ∀ (entries : List (Nat × List Char)) (lines : List (List Char)) (j : Nat),
      (∀ d ∈ entries, j + 1 < d.1) →
      (entries.foldl (fun ls d => removeOneDuplicate ls d.1) lines)[j]? =
        lines[j]? := by
  intro entries
  induction entries with
  | nil => intro lines j _; rfl
  | cons a entries ih =>
    intro lines j hall
    have h1 : (entries.foldl (fun ls d => removeOneDuplicate ls d.1)
        (removeOneDuplicate lines a.1))[j]? =
        (removeOneDuplicate lines a.1)[j]? :=
      ih (removeOneDuplicate lines a.1) j
        (fun d hd => hall d (List.mem_cons_of_mem a hd))
    calc ((a :: entries).foldl (fun ls d => removeOneDuplicate ls d.1)
          lines)[j]? =
        (entries.foldl (fun ls d => removeOneDuplicate ls d.1)
          (removeOneDuplicate lines a.1))[j]? := rfl
      _ = (removeOneDuplicate lines a.1)[j]? := h1
      _ = lines[j]? :=
          removeOneDuplicate_getElem?_of_lt lines a.1 j
            (hall a (List.mem_cons_self a entries))

/-- C10: `remove_duplicates.py` performs its 13 deletions in strictly
descending order of start line, so when each deletion is performed the
line at its (0-based) start index is still the start line of the
original file; and each deletion removes exactly the region from the
start index up to, but not including, the next line that (after
stripping) begins with `template<` or with the namespace-closing brace
line, or to end of file when no such line follows. -/
theorem remove_duplicates_descending_deletions :
    (∀ k, k < duplicates_sorted.length → ∀ j, j < duplicates_sorted.length →
      k < j → (duplicates_sorted.getD j (0, [])).1 <
        (duplicates_sorted.getD k (0, [])).1) ∧
      (∀ (lines : List (List Char)) (k : Nat),
        k < duplicates_sorted.length →
        (remove_duplicates_after k lines)[
            (duplicates_sorted.getD k (0, [])).1 - 1]? =
          lines[(duplicates_sorted.getD k (0, [])).1 - 1]?) ∧
      (∀ (lines : List (List Char)) (startLine : Nat),
        removeOneDuplicate lines startLine =
          lines.take (startLine - 1) ++
            lines.drop (findEndIdx lines (startLine - 1 + 1))) ∧
      ∀ (lines : List (List Char)) (i : Nat),
        (∀ j, i ≤ j → j < findEndIdx lines i →
          isBoundaryLine (lines.getD j []) = false) ∧
        (findEndIdx lines i = lines.length ∨
          (i ≤ findEndIdx lines i ∧
            isBoundaryLine (lines.getD (findEndIdx lines i) []) = true)) := by
  refine ⟨by decide, ?_, ?_, ?_⟩
  · intro lines k hk
    apply foldl_removeOne_getElem?
    intro d hd
    revert hd
    revert d
    revert hk
    revert k
    decide
  · intro lines startLine
    rfl
  · intro lines i
    exact ⟨(findEndIdx_spec lines i).2.1, (findEndIdx_spec lines i).2.2⟩

theorem remove_duplicates_descending_deletions_witness :
    12 < duplicates_sorted.length ∧
      (remove_duplicates_after 12 demoLines)[
          (duplicates_sorted.getD 12 (0, [])).1 - 1]? =
        demoLines[(duplicates_sorted.getD 12 (0, [])).1 - 1]? :=
  ⟨by decide,
   remove_duplicates_descending_deletions.2.1 demoLines 12 (by decide)⟩

theorem replaceLAux_fuel_irrel (old new : List Char) :
    ∀ (n m : Nat) (s : List Char), s.length ≤ n → s.length ≤ m →
      replaceLAux n s old new = replaceLAux m s old new := by
  intro n
  induction n with
  | zero =>
    intro m s hn _
    have hs : s = [] := List.length_eq_zero.mp (Nat.le_zero.mp hn)
    subst hs
    cases m <;> rfl
  | succ n ih =>
    intro m s hn hm
    cases m with
    | zero =>
      have hs : s = [] := List.length_eq_zero.mp (Nat.le_zero.mp hm)
      subst hs
      rfl
    | succ m =>
      cases s with
      | nil => rfl
      | cons c rest =>
        have hlen : rest.length + 1 ≤ n + 1 := by
          simpa using hn
        have hlen' : rest.length + 1 ≤ m + 1 := by
          simpa using hm
        show (if old ≠ [] ∧ old.isPrefixOf (c :: rest) then
            new ++ replaceLAux n ((c :: rest).drop old.length) old new
          else c :: replaceLAux n rest old new) =
          (if old ≠ [] ∧ old.isPrefixOf (c :: rest) then
            new ++ replaceLAux m ((c :: rest).drop old.length) old new
          else c :: replaceLAux m rest old new)
        by_cases hcond : old ≠ [] ∧ old.isPrefixOf (c :: rest)
        · rw [if_pos hcond, if_pos hcond]
          have hol : 1 ≤ old.length := by
            cases hcl : old with
            | nil => exact absurd hcl hcond.1
            | cons _ _ => simp
          have hdl : ((c :: rest).drop old.length).length ≤ n := by
            simp only [List.length_drop, List.length_cons]
            omega
          have hdl' : ((c :: rest).drop old.length).length ≤ m := by
            simp only [List.length_drop, List.length_cons]
            omega
          rw [ih m _ hdl hdl']
        · rw [if_neg hcond, if_neg hcond]
          rw [ih m rest (by omega) (by omega)]

theorem replaceL_cons_pos (c : Char) (rest old new : List Char)
    (h1 : old ≠ []) (h2 : old.isPrefixOf (c :: rest) = true) :
    replaceL (c :: rest) old new =
      new ++ replaceL ((c :: rest).drop old.length) old new := by
  show replaceLAux (rest.length + 1) (c :: rest) old new = _
  rw [show replaceLAux (rest.length + 1) (c :: rest) old new =
      (if old ≠ [] ∧ old.isPrefixOf (c :: rest) then
        new ++ replaceLAux rest.length ((c :: rest).drop old.length) old new
      else c :: replaceLAux rest.length rest old new) from rfl]
  rw [if_pos ⟨h1, h2⟩]
  have hol : 1 ≤ old.length := by
    cases hcl : old with
    | nil => exact absurd hcl h1
    | cons _ _ => simp
  unfold replaceL
  rw [replaceLAux_fuel_irrel old new rest.length
    ((c :: rest).drop old.length).length ((c :: rest).drop old.length)
    (by simp only [List.length_drop, List.length_cons]; omega) le_rfl]

theorem replaceL_cons_neg (c : Char) (rest old new : List Char)
    (h : ¬(old ≠ [] ∧ old.isPrefixOf (c :: rest) = true)) :
    replaceL (c :: rest) old new = c :: replaceL rest old new := by
  show replaceLAux (rest.length + 1) (c :: rest) old new = _
  rw [show replaceLAux (rest.length + 1) (c :: rest) old new =
      (if old ≠ [] ∧ old.isPrefixOf (c :: rest) then
        new ++ replaceLAux rest.length ((c :: rest).drop old.length) old new
      else c :: replaceLAux rest.length rest old new) from rfl]
  rw [if_neg h]
  rfl

theorem replaceL_of_containsL_false (old new : List Char) :
    ∀ s, containsL s old = false → replaceL s old new = s := by
  intro s
  induction s with
  | nil => intro _; rfl
  | cons c rest ih =>
    intro h
    have h' : old.isPrefixOf (c :: rest) = false ∧
        containsL rest old = false := by
      have := h
      rw [show containsL (c :: rest) old =
          (old.isPrefixOf (c :: rest) || containsL rest old) from rfl] at this
      exact Bool.or_eq_false_iff.mp this
    rw [replaceL_cons_neg]
    · rw [ih h'.2]
    · intro hcon
      rw [h'.1] at hcon
      exact Bool.false_ne_true hcon.2

theorem replaceL_head (old new t : List Char) (h1 : old ≠ [])
    (hc : containsL t old = false) :
    replaceL (old ++ t) old new = new ++ t := by
  cases hcl : old with
  | nil => exact absurd hcl h1
  | cons o os =>
    rw [← hcl]
    rw [show old ++ t = o :: (os ++ t) from by rw [hcl]; rfl]
    rw [replaceL_cons_pos o (os ++ t) old new h1 ?pref]
    case pref =>
      rw [hcl]
      have hpre : (o :: os) <+: ((o :: os) ++ t) := List.prefix_append _ _
      rw [show (o :: (os ++ t)) = (o :: os) ++ t from rfl]
      exact List.isPrefixOf_iff_prefix.mpr hpre
    have hdrop : (o :: (os ++ t)).drop old.length = t := by
      rw [hcl]
      exact List.drop_left (o :: os) t
    rw [hdrop, replaceL_of_containsL_false old new t hc]

theorem replaceL_middle (old new : List Char) :
    ∀ (A B : List Char), old ≠ [] →
      (∀ i, i < A.length →
        old.isPrefixOf ((A ++ (old ++ B)).drop i) = false) →
      containsL B old = false →
      replaceL (A ++ (old ++ B)) old new = A ++ (new ++ B) := by
  intro A
  induction A with
  | nil =>
    intro B h1 _ hc
    simpa using replaceL_head old new B h1 hc
  | cons a A ih =>
    intro B h1 hno hc
    have hstep : replaceL ((a :: A) ++ (old ++ B)) old new =
        a :: replaceL (A ++ (old ++ B)) old new := by
      rw [show (a :: A) ++ (old ++ B) = a :: (A ++ (old ++ B)) from rfl]
      apply replaceL_cons_neg
      intro hcon
      have h0 := hno 0 (by simp)
      rw [List.drop_zero] at h0
      rw [show (a :: A) ++ (old ++ B) = a :: (A ++ (old ++ B)) from rfl] at h0
      rw [h0] at hcon
      exact Bool.false_ne_true hcon.2
    have hno' : ∀ i, i < A.length →
        old.isPrefixOf ((A ++ (old ++ B)).drop i) = false := by
      intro i hi
      have hsucc := hno (i + 1) (by simpa using Nat.succ_lt_succ hi)
      rw [show ((a :: A) ++ (old ++ B)) = a :: (A ++ (old ++ B)) from rfl,
        List.drop_succ_cons] at hsucc
      exact hsucc
    rw [hstep, ih B h1 hno' hc]
    rfl

theorem fix_template_and_node_of_contains (g1 g2 g3 full : List Char)
    (h : containsL (pyStrip g1) (chars "FutureType") = true) :
    fix_template_and_node g1 g2 g3 full = full := by
  unfold fix_template_and_node
  rw [if_pos h]

/-- C7 counterexample: a method template declaration whose constraints
mention `FutureType` and whose parameter list lacks it, but whose
captured template parameter list carries leading whitespace.  The
pattern of `fix_all_raft_methods.py` matches it with first capture
` typename A`; because the capture is stripped before `str.replace`,
the text `template<typename A>` is not found, so no `typename
FutureType` is inserted into the template parameter list even though
the `node<...>` argument list is rewritten. -/
theorem fix_template_and_node_whitespace_counterexample :
    reMatchAt (chars
        "template< typename A>requires future<FutureType> auto node<A>::m(") =
      some (chars " typename A", chars "A", chars "m",
        (chars
          "template< typename A>requires future<FutureType> auto node<A>::m(").length) ∧
      containsL (pyStrip (chars " typename A")) (chars "FutureType") = false ∧
      containsL (chars "requires future<FutureType> auto ")
        (chars "FutureType") = true ∧
      fix_template_and_node (chars " typename A") (chars "A") (chars "m")
          (chars
            "template< typename A>requires future<FutureType> auto node<A>::m(") =
        chars
          "template< typename A>requires future<FutureType> auto node<FutureType, A>::m(" ∧
      containsL (chars
          "template< typename A>requires future<FutureType> auto node<FutureType, A>::m(")
        (chars "typename FutureType") = false := by
  refine ⟨by decide, by decide, by decide, by decide, by decide⟩

/-- C7 amended: for a matched method template declaration whose
captured template parameter and node argument lists carry no
surrounding whitespace, whose constraints mention `FutureType`, and
whose parameter list lacks it, `fix_template_and_node` inserts
`typename FutureType` as the first template parameter and `FutureType`
as the first argument of the `node<...>` specialization (the occurrence
side conditions say the two rewritten texts occur only at their marked
positions); a declaration whose template parameter list already
contains `FutureType` is returned unchanged. -/
theorem fix_template_and_node_inserts_futuretype :
    (∀ g1 g2 g3 mid tail : List Char,
        pyStrip g1 = g1 →
        pyStrip g2 = g2 →
        containsL g1 (chars "FutureType") = false →
        containsL mid (chars "FutureType") = true →
        containsL (mid ++ (nodePattern g2 ++ tail))
          (templatePattern g1) = false →
        (∀ i, i < (templateInsertion g1 ++ mid).length →
          (nodePattern g2).isPrefixOf
            (((templateInsertion g1 ++ mid) ++
              (nodePattern g2 ++ tail)).drop i) = false) →
        containsL tail (nodePattern g2) = false →
        fix_template_and_node g1 g2 g3
            (templatePattern g1 ++ (mid ++ (nodePattern g2 ++ tail))) =
          (templateInsertion g1 ++ mid) ++ (nodeInsertion g2 ++ tail)) ∧
      ∀ g1 g2 g3 full : List Char,
        containsL (pyStrip g1) (chars "FutureType") = true →
        fix_template_and_node g1 g2 g3 full = full := by
  constructor
  · intro g1 g2 g3 mid tail hs1 hs2 hft _hmid hnc1 hno hnc2
    unfold fix_template_and_node
    simp only [hs1, hs2]
    rw [if_neg (by simp [hft])]
    have hne1 : chars "template<" ++ g1 ++ chars ">" ≠ [] := by
      intro hcon
      have := congrArg List.length hcon
      simp [chars] at this
    have hne2 : chars "node<" ++ g2 ++ chars ">" ≠ [] := by
      intro hcon
      have := congrArg List.length hcon
      simp [chars] at this
    simp only [templatePattern, templateInsertion, nodePattern,
      nodeInsertion] at hnc1 hno hnc2 ⊢
    rw [replaceL_head (chars "template<" ++ g1 ++ chars ">")
      (chars "template<\n    " ++ (chars "typename FutureType,\n    " ++ g1) ++
        chars "\n>")
      (mid ++ (chars "node<" ++ g2 ++ chars ">" ++ tail)) hne1 hnc1]
    rw [← List.append_assoc
      (chars "template<\n    " ++ (chars "typename FutureType,\n    " ++ g1) ++
        chars "\n>") mid (chars "node<" ++ g2 ++ chars ">" ++ tail)]
    rw [replaceL_middle (chars "node<" ++ g2 ++ chars ">")
      (chars "node<" ++ (chars "FutureType, " ++ g2) ++ chars ">")
      (chars "template<\n    " ++ (chars "typename FutureType,\n    " ++ g1) ++
        chars "\n>" ++ mid) tail hne2 hno hnc2]
  · intro g1 g2 g3 full h
    exact fix_template_and_node_of_contains g1 g2 g3 full h

theorem fix_template_and_node_inserts_futuretype_witness :
    pyStrip (chars "typename A") = chars "typename A" ∧
      containsL (chars "typename A") (chars "FutureType") = false ∧
      containsL (chars "requires future<FutureType> auto ")
        (chars "FutureType") = true ∧
      fix_template_and_node (chars "typename A") (chars "B") (chars "m")
          (templatePattern (chars "typename A") ++
            (chars "requires future<FutureType> auto " ++
              (nodePattern (chars "B") ++ chars "::m("))) =
        (templateInsertion (chars "typename A") ++
            chars "requires future<FutureType> auto ") ++
          (nodeInsertion (chars "B") ++ chars "::m(") := by
  refine ⟨by decide, by decide, by decide, ?_⟩
  exact fix_template_and_node_inserts_futuretype.1
    (chars "typename A") (chars "B") (chars "m")
    (chars "requires future<FutureType> auto ") (chars "::m(")
    (by decide) (by decide) (by decide) (by decide) (by decide)
    (by decide) (by decide)

/-- C8 counterexample: on a declaration whose captured template
parameter list carries leading whitespace, applying the substitution of
`fix_all_raft_methods.py` twice keeps prepending `FutureType` to the
`node<...>` arguments, so the transformation is not idempotent. -/
theorem fix_all_raft_methods_sub_not_idempotent :
    fix_all_raft_methods_sub
        (chars "template< typename A>requires q auto node<A>::m(") =
      chars "template< typename A>requires q auto node<FutureType, A>::m(" ∧
      fix_all_raft_methods_sub
          (chars "template< typename A>requires q auto node<FutureType, A>::m(") =
        chars
          "template< typename A>requires q auto node<FutureType, FutureType, A>::m(" ∧
      fix_all_raft_methods_sub (fix_all_raft_methods_sub
          (chars "template< typename A>requires q auto node<A>::m(")) ≠
        fix_all_raft_methods_sub
          (chars "template< typename A>requires q auto node<A>::m(") := by
  refine ⟨by decide, by decide, by decide⟩

theorem reSubAux_succ (n : Nat) (s : List Char) :
    reSubAux (n + 1) s =
      match reMatchAt s with
      | some (g1, g2, g3, k) =>
        fix_template_and_node g1 g2 g3 (s.take k) ++ reSubAux n (s.drop k)
      | none =>
        match s with
        | [] => []
        | c :: s' => c :: reSubAux n s' := rfl

theorem reMatchAt_nil : reMatchAt [] = none := rfl

theorem reSubAux_fixpoint :
    ∀ (n : Nat) (s : List Char),
      (∀ (i : Nat) (g1 g2 g3 : List Char) (k : Nat),
        reMatchAt (s.drop i) = some (g1, g2, g3, k) →
        containsL (pyStrip g1) (chars "FutureType") = true) →
      reSubAux n s = s := by
  intro n
  induction n with
  | zero => intro s _; rfl
  | succ n ih =>
    intro s H
    rw [reSubAux_succ]
    cases hm : reMatchAt s with
    | some r =>
      obtain ⟨g1, g2, g3, k⟩ := r
      have hm0 : reMatchAt (s.drop 0) = some (g1, g2, g3, k) := by
        rw [List.drop_zero]
        exact hm
      have hft := H 0 g1 g2 g3 k hm0
      have hsub : reSubAux n (s.drop k) = s.drop k := by
        apply ih
        intro i g1' g2' g3' k' hm'
        rw [List.drop_drop] at hm'
        exact H (k + i) g1' g2' g3' k' hm'
      simp only [fix_template_and_node_of_contains g1 g2 g3 (s.take k) hft,
        hsub, List.take_append_drop]
    | none =>
      cases s with
      | nil => rfl
      | cons c s' =>
        have hsub : reSubAux n s' = s' := by
          apply ih
          intro i g1' g2' g3' k' hm'
          rw [← List.drop_succ_cons (n := i) (a := c) (l := s')] at hm'
          exact H (i + 1) g1' g2' g3' k' hm'
        simp only [hsub]

theorem allMatchesHaveFutureType_spec (s : List Char)
    (h : allMatchesHaveFutureType s = true) :
    ∀ (i : Nat) (g1 g2 g3 : List Char) (k : Nat),
      reMatchAt (s.drop i) = some (g1, g2, g3, k) →
      containsL (pyStrip g1) (chars "FutureType") = true := by
  intro i g1 g2 g3 k hm
  by_cases hi : i ≤ s.length
  · have hmem : i ∈ List.range (s.length + 1) := List.mem_range.mpr (by omega)
    have hf := List.all_eq_true.mp h i hmem
    rw [hm] at hf
    exact hf
  · have hnil : s.drop i = [] := List.drop_eq_nil_of_le (by omega)
    rw [hnil, reMatchAt_nil] at hm
    cases hm

/-- C8 amended: the substitution of `fix_all_raft_methods.py` is not
idempotent on every text, but any matched method template whose
(stripped) captured parameter list already contains `FutureType` is
returned unchanged, so on a text all of whose matches already carry
`FutureType` in their template parameter lists the substitution is the
identity, and applying it twice equals applying it once. -/
theorem fix_all_raft_methods_sub_idempotent_on_futuretype_texts :
    ∀ s : List Char, allMatchesHaveFutureType s = true →
      fix_all_raft_methods_sub s = s ∧
        fix_all_raft_methods_sub (fix_all_raft_methods_sub s) =
          fix_all_raft_methods_sub s := by
  intro s h
  have h1 : fix_all_raft_methods_sub s = s :=
    reSubAux_fixpoint s.length s (allMatchesHaveFutureType_spec s h)
  refine ⟨h1, ?_⟩
  rw [h1, h1]

theorem fix_all_raft_methods_sub_idempotent_witness :
    allMatchesHaveFutureType (chars
        "template<typename FutureType, typename A>requires q auto node<FutureType, A>::m(") =
      true ∧
      fix_all_raft_methods_sub (chars
          "template<typename FutureType, typename A>requires q auto node<FutureType, A>::m(") =
        chars
          "template<typename FutureType, typename A>requires q auto node<FutureType, A>::m(" :=
  ⟨by decide,
   (fix_all_raft_methods_sub_idempotent_on_futuretype_texts
     (chars
       "template<typename FutureType, typename A>requires q auto node<FutureType, A>::m(")
     (by decide)).1⟩

theorem mkBlocks_seq_bounds (n : Nat) :
    ∀ (ds : List (List Nat)) (i : Nat) (b : CoapBlock),
      b ∈ mkBlocks n i ds → i ≤ b.seqNum ∧ b.seqNum < i + ds.length := by
  intro ds
  induction ds with
  | nil => intro i b hb; cases hb
  | cons d ds ih =>
    intro i b hb
    rcases List.mem_cons.mp hb with rfl | hb'
    · simp
    · have := ih (i + 1) b hb'
      simp only [List.length_cons]
      omega

theorem mkBlocks_fields (n : Nat) :
    ∀ (ds : List (List Nat)) (i : Nat) (b : CoapBlock),
      b ∈ mkBlocks n i ds →
      b.data = ds.getD (b.seqNum - i) [] ∧
        b.more = decide (b.seqNum + 1 < n) := by
  intro ds
  induction ds with
  | nil => intro i b hb; cases hb
  | cons d ds ih =>
    intro i b hb
    rcases List.mem_cons.mp hb with rfl | hb'
    · simp
    · have hbd := ih (i + 1) b hb'
      have hbs := mkBlocks_seq_bounds n ds (i + 1) b hb'
      have hsub : b.seqNum - i = (b.seqNum - (i + 1)) + 1 := by omega
      rw [hsub, List.getD_cons_succ]
      exact hbd

theorem mkBlocks_mem_of_lt (n : Nat) :
    ∀ (ds : List (List Nat)) (i j : Nat), j < ds.length →
      (⟨i + j, decide (i + j + 1 < n), ds.getD j []⟩ : CoapBlock) ∈
        mkBlocks n i ds := by
  intro ds
  induction ds with
  | nil => intro i j hj; cases hj
  | cons d ds ih =>
    intro i j hj
    cases j with
    | zero =>
      simp [mkBlocks]
    | succ j' =>
      have hj' : j' < ds.length := by simpa using hj
      have := ih (i + 1) j' hj'
      rw [show i + (j' + 1) = (i + 1) + j' from by omega,
        List.getD_cons_succ]
      exact List.mem_cons_of_mem _ this

theorem mkBlocks_unique (n : Nat) :
    ∀ (ds : List (List Nat)) (i : Nat) (b b' : CoapBlock),
      b ∈ mkBlocks n i ds → b' ∈ mkBlocks n i ds →
      b.seqNum = b'.seqNum → b = b' := by
  intro ds
  induction ds with
  | nil => intro i b b' hb; cases hb
  | cons d ds ih =>
    intro i b b' hb hb' hs
    rcases List.mem_cons.mp hb with rfl | hbt
    · rcases List.mem_cons.mp hb' with rfl | hbt'
      · rfl
      · have := mkBlocks_seq_bounds n ds (i + 1) b' hbt'
        exfalso
        simp only [← hs] at this
        simp at this
    · rcases List.mem_cons.mp hb' with rfl | hbt'
      · have := mkBlocks_seq_bounds n ds (i + 1) b hbt
        exfalso
        simp only [hs] at this
        simp at this
      · exact ih (i + 1) b b' hbt hbt' hs

theorem foldl_receive_subset :
    ∀ (l acc : List CoapBlock) (x : CoapBlock),
      x ∈ List.foldl receive_block acc l → x ∈ acc ∨ x ∈ l := by
  intro l
  induction l with
  | nil => intro acc x hx; exact Or.inl hx
  | cons a l ih =>
    intro acc x hx
    rcases ih (receive_block acc a) x hx with hacc | hl
    · unfold receive_block at hacc
      split_ifs at hacc
      · exact Or.inl hacc
      · rcases List.mem_cons.mp hacc with rfl | h
        · exact Or.inr (List.mem_cons_self _ _)
        · exact Or.inl h
    · exact Or.inr (List.mem_cons_of_mem _ hl)

theorem receive_block_mono (acc : List CoapBlock) (a y : CoapBlock)
    (hy : y ∈ acc) : y ∈ receive_block acc a := by
  unfold receive_block
  split_ifs
  · exact hy
  · exact List.mem_cons_of_mem _ hy

theorem foldl_receive_mono :
    ∀ (l acc : List CoapBlock) (y : CoapBlock),
      y ∈ acc → y ∈ List.foldl receive_block acc l := by
  intro l
  induction l with
  | nil => intro acc y hy; exact hy
  | cons a l ih =>
    intro acc y hy
    exact ih (receive_block acc a) y (receive_block_mono acc a y hy)

theorem foldl_receive_seq :
    ∀ (l acc : List CoapBlock) (b : CoapBlock),
      b ∈ l ∨ b ∈ acc →
      ∃ x ∈ List.foldl receive_block acc l, x.seqNum = b.seqNum := by
  intro l
  induction l with
  | nil =>
    intro acc b hb
    rcases hb with h | h
    · cases h
    · exact ⟨b, h, rfl⟩
  | cons a l ih =>
    intro acc b hb
    have hseqa : ∃ y ∈ receive_block acc a, y.seqNum = a.seqNum := by
      unfold receive_block
      split_ifs with hany
      · obtain ⟨x, hx, hxa⟩ := List.any_eq_true.mp hany
        exact ⟨x, hx, by simpa using hxa⟩
      · exact ⟨a, List.mem_cons_self _ _, rfl⟩
    rcases hb with hl | hacc
    · rcases List.mem_cons.mp hl with heq | hbl
      · obtain ⟨y, hy, hys⟩ := hseqa
        refine ⟨y, foldl_receive_mono l (receive_block acc a) y hy, ?_⟩
        rw [hys, heq]
      · exact ih (receive_block acc a) b (Or.inl hbl)
    · exact ih (receive_block acc a) b
        (Or.inr (receive_block_mono acc a b hacc))

theorem chunkPayloadAux_fuel_irrel (bs : Nat) :
    ∀ (n m : Nat) (p : List Nat), p.length ≤ n → p.length ≤ m →
      chunkPayloadAux n bs p = chunkPayloadAux m bs p := by
  intro n
  induction n with
  | zero =>
    intro m p hn _
    have hp : p = [] := List.length_eq_zero.mp (Nat.le_zero.mp hn)
    subst hp
    cases m <;> rfl
  | succ n ih =>
    intro m p hn hm
    cases m with
    | zero =>
      have hp : p = [] := List.length_eq_zero.mp (Nat.le_zero.mp hm)
      subst hp
      rfl
    | succ m =>
      cases p with
      | nil => rfl
      | cons c rest =>
        show ((c :: rest).take (max bs 1) ::
            chunkPayloadAux n bs ((c :: rest).drop (max bs 1))) =
          ((c :: rest).take (max bs 1) ::
            chunkPayloadAux m bs ((c :: rest).drop (max bs 1)))
        have hmax : 1 ≤ max bs 1 := le_max_right _ _
        have hd : ((c :: rest).drop (max bs 1)).length ≤ n := by
          simp only [List.length_drop, List.length_cons]
          simp only [List.length_cons] at hn
          omega
        have hd' : ((c :: rest).drop (max bs 1)).length ≤ m := by
          simp only [List.length_drop, List.length_cons]
          simp only [List.length_cons] at hm
          omega
        rw [ih m _ hd hd']

theorem chunkPayload_cons (bs : Nat) (c : Nat) (rest : List Nat) :
    chunkPayload bs (c :: rest) =
      (c :: rest).take (max bs 1) ::
        chunkPayload bs ((c :: rest).drop (max bs 1)) := by
  show chunkPayloadAux (rest.length + 1) bs (c :: rest) = _
  rw [show chunkPayloadAux (rest.length + 1) bs (c :: rest) =
      (c :: rest).take (max bs 1) ::
        chunkPayloadAux rest.length bs ((c :: rest).drop (max bs 1)) from rfl]
  unfold chunkPayload
  have hmax : 1 ≤ max bs 1 := le_max_right _ _
  rw [chunkPayloadAux_fuel_irrel bs rest.length
    ((c :: rest).drop (max bs 1)).length ((c :: rest).drop (max bs 1))
    (by simp only [List.length_drop, List.length_cons]; omega) le_rfl]

theorem chunkPayload_flatten (bs : Nat) :
    ∀ (n : Nat) (p : List Nat), p.length ≤ n →
      (chunkPayload bs p).flatten = p := by
  intro n
  induction n with
  | zero =>
    intro p hp
    have : p = [] := List.length_eq_zero.mp (Nat.le_zero.mp hp)
    subst this
    rfl
  | succ n ih =>
    intro p hp
    cases p with
    | nil => rfl
    | cons c rest =>
      rw [chunkPayload_cons, List.flatten_cons]
      have hmax : 1 ≤ max bs 1 := le_max_right _ _
      rw [ih ((c :: rest).drop (max bs 1)) ?_]
      · exact List.take_append_drop _ _
      · simp only [List.length_drop, List.length_cons]
        simp only [List.length_cons] at hp
        omega

theorem mapM_eq_some_map (f : Nat → Option (List Nat)) (g : Nat → List Nat) :
    ∀ l : List Nat, (∀ i ∈ l, f i = some (g i)) →
      l.mapM f = some (l.map g) := by
  intro l
  induction l with
  | nil => intro _; rfl
  | cons a l ih =>
    intro h
    rw [List.mapM_cons, h a (List.mem_cons_self _ _),
      ih (fun i hi => h i (List.mem_cons_of_mem a hi))]
    rfl

theorem range_map_getD (l : List (List Nat)) :
    (List.range l.length).map (fun i => l.getD i []) = l := by
  induction l with
  | nil => rfl
  | cons d l ih =>
    rw [show (d :: l).length = l.length + 1 from rfl,
      List.range_succ_eq_map, List.map_cons, List.map_map]
    have hcomp : (List.range l.length).map
        ((fun i => (d :: l).getD i []) ∘ Nat.succ) =
        (List.range l.length).map (fun i => l.getD i []) := by
      apply List.map_congr_left
      intro i _
      rfl
    rw [hcomp, ih]
    rfl

theorem reassemble_split (blockSize : Nat) (p : List Nat) (hp : p ≠ [])
    (arrivals : List CoapBlock)
    (hsub1 : arrivals ⊆ split_payload_into_blocks blockSize p)
    (hsub2 : split_payload_into_blocks blockSize p ⊆ arrivals) :
    reassemble_blocks arrivals = some p := by
  have hn : 0 < (chunkPayload blockSize p).length := by
    cases p with
    | nil => exact absurd rfl hp
    | cons c rest =>
      rw [chunkPayload_cons]
      simp
  have hmemsplit : ∀ x ∈ arrivals.foldl receive_block [],
      x ∈ split_payload_into_blocks blockSize p := by
    intro x hx
    rcases foldl_receive_subset arrivals [] x hx with h | h
    · cases h
    · exact hsub1 h
  have hA : ∀ i, i < (chunkPayload blockSize p).length →
      ∃ x ∈ arrivals.foldl receive_block [],
        x.seqNum = i ∧ x.data = (chunkPayload blockSize p).getD i [] ∧
          x.more = decide (i + 1 < (chunkPayload blockSize p).length) := by
    intro i hi
    have hbi : (⟨i, decide (i + 1 < (chunkPayload blockSize p).length),
        (chunkPayload blockSize p).getD i []⟩ : CoapBlock) ∈
        split_payload_into_blocks blockSize p := by
      have := mkBlocks_mem_of_lt (chunkPayload blockSize p).length
        (chunkPayload blockSize p) 0 i hi
      simpa using this
    obtain ⟨x, hxt, hxs⟩ :=
      foldl_receive_seq arrivals [] _ (Or.inl (hsub2 hbi))
    have hxeq : x = ⟨i, decide (i + 1 < (chunkPayload blockSize p).length),
        (chunkPayload blockSize p).getD i []⟩ :=
      mkBlocks_unique (chunkPayload blockSize p).length
        (chunkPayload blockSize p) 0 x _ (hmemsplit x hxt) hbi hxs
    exact ⟨x, hxt, by rw [hxeq], by rw [hxeq], by rw [hxeq]⟩
  have hlast_ex : ∃ b ∈ arrivals.foldl receive_block [], (!b.more) = true := by
    obtain ⟨x, hxt, hxs, hxd, hxm⟩ :=
      hA ((chunkPayload blockSize p).length - 1) (by omega)
    refine ⟨x, hxt, ?_⟩
    rw [hxm, show (chunkPayload blockSize p).length - 1 + 1 =
      (chunkPayload blockSize p).length from by omega]
    simp
  have hfs : ((arrivals.foldl receive_block []).find?
      (fun b => !b.more)).isSome := List.find?_isSome.mpr hlast_ex
  cases hfind : (arrivals.foldl receive_block []).find?
      (fun b => !b.more) with
  | none =>
    rw [hfind] at hfs
    cases hfs
  | some last =>
    have hlast_mem : last ∈ arrivals.foldl receive_block [] :=
      List.mem_of_find?_eq_some hfind
    have hlast_pred := List.find?_some hfind
    have hlast_split := hmemsplit last hlast_mem
    have hbounds := mkBlocks_seq_bounds (chunkPayload blockSize p).length
      (chunkPayload blockSize p) 0 last hlast_split
    have hfields := mkBlocks_fields (chunkPayload blockSize p).length
      (chunkPayload blockSize p) 0 last hlast_split
    have hseq : last.seqNum + 1 = (chunkPayload blockSize p).length := by
      have hnot : ¬ (last.seqNum + 1 < (chunkPayload blockSize p).length) := by
        intro hlt
        rw [hfields.2] at hlast_pred
        simp [hlt] at hlast_pred
      have := hbounds.2
      omega
    have hC : ∀ i ∈ List.range (chunkPayload blockSize p).length,
        (((arrivals.foldl receive_block []).find?
          (fun b => b.seqNum = i)).map (fun b => b.data)) =
          some ((chunkPayload blockSize p).getD i []) := by
      intro i hi
      have hi' := List.mem_range.mp hi
      obtain ⟨x, hxt, hxs, hxd, _⟩ := hA i hi'
      have hfs2 : (((arrivals.foldl receive_block []).find?
          (fun b => b.seqNum = i))).isSome := by
        apply List.find?_isSome.mpr
        exact ⟨x, hxt, by simp [hxs]⟩
      cases hf2 : (arrivals.foldl receive_block []).find?
          (fun b => b.seqNum = i) with
      | none =>
        rw [hf2] at hfs2
        cases hfs2
      | some y =>
        have hy_mem := List.mem_of_find?_eq_some hf2
        have hy_pred := List.find?_some hf2
        have hys : y.seqNum = i := by simpa using hy_pred
        have hyf := mkBlocks_fields (chunkPayload blockSize p).length
          (chunkPayload blockSize p) 0 y (hmemsplit y hy_mem)
        have hyd : y.data = (chunkPayload blockSize p).getD i [] := by
          rw [hyf.1, hys]
          norm_num
        simp [hyd]
    unfold reassemble_blocks
    dsimp only []
    rw [hfind]
    dsimp only []
    rw [hseq]
    rw [mapM_eq_some_map _ (fun i => (chunkPayload blockSize p).getD i [])
      (List.range (chunkPayload blockSize p).length) hC]
    rw [show Option.map List.flatten
        (some ((List.range (chunkPayload blockSize p).length).map
          (fun i => (chunkPayload blockSize p).getD i []))) =
      some (((List.range (chunkPayload blockSize p).length).map
        (fun i => (chunkPayload blockSize p).getD i [])).flatten) from rfl]
    rw [range_map_getD (chunkPayload blockSize p)]
    rw [chunkPayload_flatten blockSize p.length p le_rfl]

theorem mkBlocks_length (n : Nat) :
    ∀ (ds : List (List Nat)) (i : Nat), (mkBlocks n i ds).length = ds.length := by
  intro ds
  induction ds with
  | nil => intro i; rfl
  | cons d ds ih =>
    intro i
    simp only [mkBlocks, List.length_cons, ih (i + 1)]

theorem chunkPayload_length (bs : Nat) :
    ∀ (n : Nat) (p : List Nat), p.length ≤ n →
      (chunkPayload bs p).length =
        (p.length + max bs 1 - 1) / max bs 1 := by
  intro n
  induction n with
  | zero =>
    intro p hp
    have hp0 : p = [] := List.length_eq_zero.mp (Nat.le_zero.mp hp)
    subst hp0
    rw [show (chunkPayload bs ([] : List Nat)).length = 0 from rfl]
    simp only [List.length_nil]
    rw [Nat.div_eq_of_lt (by omega)]
  | succ n ih =>
    intro p hp
    cases p with
    | nil =>
      rw [show (chunkPayload bs ([] : List Nat)).length = 0 from rfl]
      simp only [List.length_nil]
      rw [Nat.div_eq_of_lt (by omega)]
    | cons c rest =>
      simp only [List.length_cons] at hp
      have hmax0 : 0 < max bs 1 := lt_of_lt_of_le Nat.zero_lt_one (le_max_right _ _)
      have hdlen : ((c :: rest).drop (max bs 1)).length = rest.length + 1 - max bs 1 := by
        simp only [List.length_drop, List.length_cons]
      rw [chunkPayload_cons, List.length_cons]
      rw [ih ((c :: rest).drop (max bs 1)) (by rw [hdlen]; omega)]
      rw [hdlen]
      simp only [List.length_cons]
      rw [show rest.length + 1 + max bs 1 - 1 =
        (rest.length + 1 - 1) + max bs 1 from by omega,
        Nat.add_div_right _ hmax0]
      by_cases hm : max bs 1 < rest.length + 1
      · rw [show rest.length + 1 - max bs 1 + max bs 1 - 1 =
          (rest.length + 1 - max bs 1 - 1) + max bs 1 from by omega,
          Nat.add_div_right _ hmax0,
          show rest.length + 1 - 1 =
            (rest.length + 1 - max bs 1 - 1) + max bs 1 from by omega,
          Nat.add_div_right _ hmax0]
      · rw [show rest.length + 1 - max bs 1 + max bs 1 - 1 =
          max bs 1 - 1 from by omega]
        rw [Nat.div_eq_of_lt (by omega), Nat.div_eq_of_lt (by omega)]

/-- C2: splitting a nonempty payload into sequence-numbered blocks with
more-flags and reassembling any arrival order of those blocks, with
duplicates allowed, reproduces the payload byte for byte (the arrival
list holds exactly the split's blocks, in any order and multiplicity);
in particular a 2 KB payload with a 256-byte block size splits into
exactly 8 blocks and a reversed delivery reassembles byte-identical. -/
theorem block_transfer_reassembly_correct :
    (∀ (blockSize : Nat) (p : List Nat), p ≠ [] →
        ∀ arrivals : List CoapBlock,
          arrivals ⊆ split_payload_into_blocks blockSize p →
          split_payload_into_blocks blockSize p ⊆ arrivals →
          reassemble_blocks arrivals = some p) ∧
      (split_payload_into_blocks 256 (List.replicate 2048 0)).length = 8 ∧
      reassemble_blocks
          (split_payload_into_blocks 256 (List.replicate 2048 0)).reverse =
        some (List.replicate 2048 0) := by
  have hrep : (List.replicate 2048 (0 : Nat)) ≠ [] := by
    intro h
    have := congrArg List.length h
    simp only [List.length_replicate, List.length_nil] at this
    exact absurd this (by decide)
  refine ⟨reassemble_split, ?_, ?_⟩
  · unfold split_payload_into_blocks
    rw [mkBlocks_length]
    rw [chunkPayload_length 256 (List.replicate 2048 (0 : Nat)).length _ le_rfl]
    norm_num
  · apply reassemble_split 256 (List.replicate 2048 0) hrep
    · intro b hb
      exact List.mem_reverse.mp hb
    · intro b hb
      exact List.mem_reverse.mpr hb

theorem block_transfer_reassembly_correct_witness :
    ([1, 2, 3, 4, 5] : List Nat) ≠ [] ∧
      ((split_payload_into_blocks 2 [1, 2, 3, 4, 5]).reverse ++
          (split_payload_into_blocks 2 [1, 2, 3, 4, 5]).take 1) ⊆
        split_payload_into_blocks 2 [1, 2, 3, 4, 5] ∧
      split_payload_into_blocks 2 [1, 2, 3, 4, 5] ⊆
        ((split_payload_into_blocks 2 [1, 2, 3, 4, 5]).reverse ++
          (split_payload_into_blocks 2 [1, 2, 3, 4, 5]).take 1) ∧
      reassemble_blocks
          ((split_payload_into_blocks 2 [1, 2, 3, 4, 5]).reverse ++
            (split_payload_into_blocks 2 [1, 2, 3, 4, 5]).take 1) =
        some [1, 2, 3, 4, 5] :=
  ⟨by decide, by decide, by decide,
   block_transfer_reassembly_correct.1 2 [1, 2, 3, 4, 5] (by decide) _
     (by decide) (by decide)⟩
